import Mathlib

/-!
Verification development for the Rag-Chat-App repository.

Strings are modelled as `List Char` (JavaScript strings are sequences of
code units; all source operations used here — slice, lastIndexOf, trim,
startsWith, template concatenation, lexicographic `<` — act uniformly on
that sequence view). Numbers that the source only ever uses as integers
(indices, sizes, counts, dimensions) are modelled as `Nat`/`Int`.
Embedding vectors are never inspected numerically by the code under
verification, so they are carried as an opaque type parameter.
-/

namespace RagChat

/-- The whitespace class used by `String.prototype.trim`, restricted to the
ASCII members that can occur in the texts these claims quantify over. -/
def isSpace (c : Char) : Bool :=
  c = ' ' || c = '\t' || c = '\n' || c = '\r'

/-- Model of `s.trim()`: drop whitespace from both ends. -/
def trim (l : List Char) : List Char :=
  ((l.dropWhile isSpace).reverse.dropWhile isSpace).reverse

/-- Model of `s.lastIndexOf(c)`: the greatest index holding `c`, else `-1`. -/
def lastIndexOf (l : List Char) (c : Char) : Int :=
  match l.reverse.findIdx? (· = c) with
  | none => -1
  | some i => ((l.length - 1 - i : Nat) : Int)

/-!
## Chunker — `lib/utils/chunking.ts`, `chunkText`

The source's `while (start < text.length)` loop is modelled with explicit
fuel; `none` models a non-terminating run of the loop.  Each loop iteration
pushes one (trimmed) chunk, modelled by consing onto the recursive result.
The float comparison `breakPoint > chunkSize * 0.5` is exact for the
integer operands involved and equals `2 * breakPoint > chunkSize`.
-/

/-- One source loop iteration per fuel unit.  `start` is the scan cursor.
`e` is `Math.min(start + chunkSize, text.length)`; the window is
`text.slice(start, e)`.  On a mid-text window the code looks for the last
`'.'` or `'\n'`; if that breakpoint lies past the window midpoint it cuts
there and advances by `breakPoint + 1`, otherwise it keeps the full window
and advances by `chunkSize - chunkOverlap` (the source adds the raw
difference; for `chunkOverlap ≥ chunkSize` the cursor does not advance, so
the run consumes all fuel, i.e. the loop never exits). -/
def chunkLoop (t : List Char) (cs co : Nat) : Nat → Nat → Option (List (List Char))
  | 0, _ => none
  | fuel + 1, start =>
    if start < t.length then
      let e := min (start + cs) t.length
      let chunk := (t.drop start).take (e - start)
      if e < t.length then
        let breakPoint := max (lastIndexOf chunk '.') (lastIndexOf chunk '\n')
        if 2 * breakPoint > (cs : Int) then
          (chunkLoop t cs co fuel (start + (breakPoint.toNat + 1))).map
            (fun rest => trim (chunk.take (breakPoint.toNat + 1)) :: rest)
        else
          (chunkLoop t cs co fuel (start + (cs - co))).map
            (fun rest => trim chunk :: rest)
      else
        some [trim chunk]
    else some []

/-- Model of `chunkText(text, chunkSize, chunkOverlap)`.  Empty or
whitespace-only input returns `[]` immediately; otherwise the loop runs
(fuel `text.length + 1` suffices whenever the loop terminates, since every
iteration either advances the cursor by at least one or ends the loop),
and empty chunks are filtered from the collected result. -/
def chunkText (text : List Char) (cs co : Nat) : Option (List (List Char)) :=
  if text.isEmpty || (trim text).isEmpty then some []
  else (chunkLoop text cs co (text.length + 1) 0).map
    (List.filter (fun c => !c.isEmpty))

example : chunkText "hello".toList 10 2 = some ["hello".toList] := by decide

example : chunkText " ".toList 5 2 = some [] := by decide

example : chunkText "abcdefgh".toList 4 1 =
    some ["abcd".toList, "defg".toList, "gh".toList] := by decide

example : chunkText "abc.defgh".toList 4 1 =
    some ["abc.".toList, "defg".toList, "gh".toList] := by decide

/-!
## Embedder — `lib/embeddings.ts`

`generateEmbeddings` validates the credential and the input list, then
issues one batched embedding call whose result is aligned index-for-index
with the input.  The external model is abstracted as a pure oracle
`oracle : GTaskType → List Char → α`; the single batched call is the one
`texts.map (oracle taskType)` application.  Error values carry the
source's message strings.
-/

/-- The apostrophe character, written via its code point. -/
def apos : Char := Char.ofNat 39

/-- Task type tag passed to the embedding capability. -/
inductive GTaskType
  | RETRIEVAL_DOCUMENT
  | RETRIEVAL_QUERY
  deriving DecidableEq, Repr

def geminiKeyMsg : List Char :=
  "GEMINI_API_KEY is not set in environment variables".toList

def emptyTextsMsg : List Char := "Texts array cannot be empty".toList

/-- Model of `generateEmbeddings(texts, taskType)`.  `hasKey` models
whether `process.env.GEMINI_API_KEY` is set; `oracle` abstracts the hosted
embedding model (order-preserving batched call). -/
def generateEmbeddings {α : Type} (hasKey : Bool) (oracle : GTaskType → List Char → α)
    (texts : List (List Char)) (taskType : GTaskType) : Except (List Char) (List α) :=
  if !hasKey then .error geminiKeyMsg
  else if texts.isEmpty then .error emptyTextsMsg
  else .ok (texts.map (oracle taskType))

/-!
## Index gateway — `lib/pinecone.ts`, `getPineconeIndex`

The external Pinecone control plane is modelled as an association list from
index name to declared dimension.  `getPineconeIndex` is modelled over that
state plus an outcome parameter for the fallible `createIndex` call
(`none` = the create succeeds; `some msg` = the create throws `msg`, e.g.
an "already exists" conflict when a concurrent caller created the index
between `listIndexes` and `createIndex`; `racerDim` is the dimension that
concurrent creation installed).  The source wraps the whole block in one
`try`/`catch` whose handler treats any error whose message contains
"already exists" as success and rethrows everything else; since
`createIndex` is the only call modelled as fallible here, that handler is
placed at each create site, with the state the source would observe there.
The target index name is taken already resolved (argument or
`PINECONE_INDEX_NAME`), and the readiness/settling waits are not part of
the state model.
-/

def EMBEDDING_DIMENSION : Nat := 768

/-- External index listing: name ↦ declared dimension, in listing order. -/
abbrev IndexState := List (List Char × Nat)

def lookupIndex (name : List Char) : IndexState → Option Nat
  | [] => none
  | (n, d) :: rest => if n = name then some d else lookupIndex name rest

def eraseIndex (name : List Char) : IndexState → IndexState
  | [] => []
  | (n, d) :: rest =>
    if n = name then eraseIndex name rest else (n, d) :: eraseIndex name rest

/-- `haystack.includes(needle)` on strings. -/
def containsSub (needle haystack : List Char) : Bool :=
  (List.range (haystack.length + 1)).any (fun i => needle.isPrefixOf (haystack.drop i))

def alreadyExistsStr : List Char := "already exists".toList

/-- Model of `getPineconeIndex(indexName)` (see the section comment for the
parameters).  Returns the resulting control-plane state on success. -/
def getPineconeIndex (name : List Char) (st : IndexState)
    (createOutcome : Option (List Char)) (racerDim : Nat) :
    Except (List Char) IndexState :=
  match lookupIndex name st with
  | none =>
    -- index absent: create it with EMBEDDING_DIMENSION
    match createOutcome with
    | none => .ok ((name, EMBEDDING_DIMENSION) :: st)
    | some msg =>
      if containsSub alreadyExistsStr msg then .ok ((name, racerDim) :: st)
      else .error msg
  | some d =>
    if d ≠ EMBEDDING_DIMENSION then
      -- dimension mismatch: deleteIndex, settle, then recreate
      let st1 := eraseIndex name st
      match createOutcome with
      | none => .ok ((name, EMBEDDING_DIMENSION) :: st1)
      | some msg =>
        if containsSub alreadyExistsStr msg then .ok ((name, racerDim) :: st1)
        else .error msg
    else
      -- dimension matches: reuse as-is
      .ok st

/-!
## Document registry — `lib/pinecone.ts`, `getUniqueDocuments` and
`deleteDocumentVectors`

The fetched index contents are modelled as the list of records the
pagination-plus-batched-fetch phase yields (id plus an optional,
loosely-typed metadata bag), in scan order; pagination to exhaustion and
the batch size of 100 only affect how that list is obtained from the
service, not the aggregation computed from it.  JavaScript truthiness of
an optional string field (`undefined` and `''` are falsy) is `jsTruthy`;
JavaScript `<` on strings is the lexicographic `jsStrLt`.
-/

/-- Loosely-typed metadata bag as read back from the index. -/
structure MetaBag where
  text : Option (List Char) := none
  source : Option (List Char) := none
  chunkIndex : Option Nat := none
  documentId : Option (List Char) := none
  createdAt : Option (List Char) := none
  deriving DecidableEq, Repr

/-- One fetched vector: id and (possibly missing) metadata. -/
structure FetchedVec where
  id : List Char
  metadata : Option MetaBag
  deriving DecidableEq, Repr

/-- Truthiness of `string | undefined`: `undefined` and `''` are falsy. -/
def jsTruthy (o : Option (List Char)) : Bool :=
  !(o.getD []).isEmpty

/-- JavaScript `<` on strings: strict lexicographic order on code units. -/
def jsStrLt : List Char → List Char → Bool
  | [], [] => false
  | [], _ :: _ => true
  | _ :: _, [] => false
  | a :: as, b :: bs => if a < b then true else if b < a then false else jsStrLt as bs

/-- Running aggregate per `documentId` in `getUniqueDocuments`. -/
structure DocAgg where
  source : List Char
  createdAt : List Char
  chunkCount : Nat
  deriving DecidableEq, Repr

/-- `Map.get` on the insertion-ordered association list. -/
def lookupAgg (k : List Char) : List (List Char × DocAgg) → Option DocAgg
  | [] => none
  | (k2, v) :: rest => if k2 = k then some v else lookupAgg k rest

/-- In-place update of the entry at key `k` (the JS code mutates the object
obtained from `Map.get`). -/
def updateAgg (k : List Char) (f : DocAgg → DocAgg) :
    List (List Char × DocAgg) → List (List Char × DocAgg)
  | [] => []
  | (k2, v) :: rest =>
    if k2 = k then (k2, f v) :: rest else (k2, v) :: updateAgg k f rest

/-- The fresh map entry created on first sight of a `documentId`:
this record's `source`, `createdAt || now`, and `chunkCount: 0`. -/
def initAgg (now : List Char) (md : MetaBag) : DocAgg :=
  { source := md.source.getD []
    createdAt := if jsTruthy md.createdAt then md.createdAt.getD [] else now
    chunkCount := 0 }

/-- The per-record mutation applied to the map entry: increment
`chunkCount`, then keep the record's `createdAt` if it is truthy and
lexicographically earlier than the stored one. -/
def bumpAgg (md : MetaBag) (doc : DocAgg) : DocAgg :=
  let doc1 : DocAgg := { doc with chunkCount := doc.chunkCount + 1 }
  if jsTruthy md.createdAt && jsStrLt (md.createdAt.getD []) doc1.createdAt then
    { doc1 with createdAt := md.createdAt.getD [] }
  else doc1

/-- Processing of one aggregated record `(documentId, metadata)`: ensure a
map entry exists (inserting `initAgg` at the end, preserving insertion
order), then apply `bumpAgg` to it in place. -/
def foldRec (now : List Char) (m : List (List Char × DocAgg))
    (r : List Char × MetaBag) : List (List Char × DocAgg) :=
  let m1 :=
    if (lookupAgg r.1 m).isSome then m
    else m ++ [(r.1, initAgg now r.2)]
  updateAgg r.1 (bumpAgg r.2) m1

/-- One iteration of the `allVectors.forEach` fold in `getUniqueDocuments`:
skip a record without metadata or without both a truthy `documentId` and a
truthy `source`; otherwise process it with `foldRec`. -/
def foldDoc (now : List Char) (m : List (List Char × DocAgg)) (v : FetchedVec) :
    List (List Char × DocAgg) :=
  match v.metadata with
  | none => m
  | some md =>
    if jsTruthy md.documentId && jsTruthy md.source then
      foldRec now m (md.documentId.getD [], md)
    else m

/-- The records `getUniqueDocuments` actually aggregates: metadata present
with both a truthy `documentId` and a truthy `source`, keyed by that
`documentId`. -/
def aggRecords (vectors : List FetchedVec) : List (List Char × MetaBag) :=
  vectors.filterMap (fun v => v.metadata.bind (fun md =>
    if jsTruthy md.documentId && jsTruthy md.source then
      some (md.documentId.getD [], md)
    else none))

/-- The truthy-defaulted `createdAt` values of the aggregated records with
key `k`, in scan order. -/
def cAts (k : List Char) (rs : List (List Char × MetaBag)) : List (List Char) :=
  (rs.filter (fun r => decide (r.1 = k))).map (fun r => r.2.createdAt.getD [])

/-- Model of `getUniqueDocuments`: fold the fetched records into the
insertion-ordered map and return its entries.  `now` models
`new Date().toISOString()` at aggregation time. -/
def getUniqueDocuments (now : List Char) (vectors : List FetchedVec) :
    List (List Char × DocAgg) :=
  vectors.foldl (foldDoc now) []

def chunkKeySep : List Char := "-chunk-".toList

/-- Model of `deleteDocumentVectors(index, documentId)` over the index
contents `st` (id ↦ payload): list, to exhaustion, the ids bearing the
prefix `documentId ++ "-chunk-"`; if none, return `(st, 0)` without a
delete call; otherwise delete exactly those ids in one batch call and
return their count. -/
def deleteDocumentVectors {α : Type} (documentId : List Char)
    (st : List (List Char × α)) : List (List Char × α) × Nat :=
  let pfx := documentId ++ chunkKeySep
  let vectorIds := (st.map Prod.fst).filter (fun id => pfx.isPrefixOf id)
  if vectorIds.length = 0 then (st, 0)
  else (st.filter (fun e => !(pfx.isPrefixOf e.1)), vectorIds.length)

/-!
## RAG orchestrator — `lib/rag.ts` (`processDocument`, `queryRAG`) and
`app/api/chat/route.ts` (`POST`)

`processDocument` chunks with `chunkText(text, 1000, 200)`, batch-embeds
the chunks tagged `RETRIEVAL_DOCUMENT`, builds one record per chunk and
hands them all to a single `upsertVectors` call.  The returned value of
the model is the payload of that one upsert call (or the thrown error);
`none` models a non-terminating `chunkText` run.  `now` models the
`new Date().toISOString()` taken while building the records.
-/

/-- Metadata written at ingestion time (all fields present). -/
structure RecMetadata where
  text : List Char
  source : List Char
  chunkIndex : Nat
  documentId : List Char
  createdAt : List Char
  deriving DecidableEq, Repr

/-- One record of the upsert payload; `values` is `embeddings[index]`,
which in JavaScript is `undefined` when the index is out of range, hence
`Option α`. -/
structure VecRecord (α : Type) where
  id : List Char
  values : Option α
  metadata : RecMetadata
  deriving DecidableEq, Repr

/-- `Array.prototype.map`'s `(element, index)` callback form. -/
def mapWithIndex {α β : Type} (f : Nat → α → β) : Nat → List α → List β
  | _, [] => []
  | i, a :: l => f i a :: mapWithIndex f (i + 1) l

/-- Model of `processDocument(text, source, documentId)`. -/
def processDocument {α : Type} (hasKey : Bool) (oracle : GTaskType → List Char → α)
    (text source documentId now : List Char) :
    Option (Except (List Char) (List (VecRecord α))) :=
  (chunkText text 1000 200).map (fun chunks =>
    match generateEmbeddings hasKey oracle chunks GTaskType.RETRIEVAL_DOCUMENT with
    | .error e => .error e
    | .ok embeddings =>
      .ok (mapWithIndex (fun index chunk =>
        { id := documentId ++ chunkKeySep ++ (Nat.repr index).toList
          values := embeddings.get? index
          metadata :=
            { text := chunk
              source := source
              chunkIndex := index
              documentId := documentId
              createdAt := now } }) 0 chunks))

/-- One match returned by `queryVectors` (id and score are not consumed by
`queryRAG`'s context/source assembly and are omitted): the optional
metadata bag's `text` and `source` fields. -/
structure QueryMatch where
  metadata : Option MetaBag
  deriving DecidableEq, Repr

/-- The canned response returned when no context was retrieved. -/
def noDocsMsg : List Char :=
  "I don".toList ++ [apos] ++
  "t have any documents loaded yet. Please upload some documents first so I can answer your questions based on their content.".toList

/-- The instruction prompt `queryRAG` builds around the retrieved context
and the query (the template literal at the end of `lib/rag.ts`). -/
def buildPrompt (context query : List Char) : List Char :=
  "You are a helpful assistant. Answer the user".toList ++ [apos] ++
  "s question based on the following context. If the context doesn".toList ++ [apos] ++
  "t contain enough information, say so.\n\nContext:\n".toList ++
  context ++
  "\n\nQuestion: ".toList ++ query ++ "\n\nAnswer:".toList

/-- `[...new Set(sources)]`: deduplicate keeping first occurrences. -/
def dedupFirst {α : Type} [DecidableEq α] (seen : List α) : List α → List α
  | [] => []
  | a :: l =>
    if a ∈ seen then dedupFirst seen l else a :: dedupFirst (a :: seen) l

/-- Observable outcome of `queryRAG`: either the canned no-context answer
(no generation call is made), a thrown error, or one generation call on
the recorded prompt whose text is returned verbatim. -/
inductive RagOutcome
  | canned (response : List Char) (sources : List (List Char))
  | failed (msg : List Char)
  | generated (prompt : List Char) (sources : List (List Char))
  deriving DecidableEq, Repr

/-- The concatenated context `queryRAG` assembles: each match's
`metadata?.text || ''`, empty strings dropped, joined with `"\n\n"`. -/
def buildContext (results : List QueryMatch) : List Char :=
  List.intercalate "\n\n".toList
    ((results.map (fun r => ((r.metadata.bind MetaBag.text).getD []))).filter
      (fun t => !t.isEmpty))

/-- The `source` values `queryRAG` collects: each match's
`metadata?.source`, falsy values dropped. -/
def collectSources (results : List QueryMatch) : List (List Char) :=
  (results.map (fun r => ((r.metadata.bind MetaBag.source).getD []))).filter
    (fun s => !s.isEmpty)

/-- Model of `queryRAG(query, topK)` from `lib/rag.ts`.  The query
embedding and the Pinecone query are external; `results` is what
`queryVectors(index, queryEmbedding, topK)` returned.  Note the source
function takes only `(query, topK)` — it has no history parameter. -/
def queryRAG (query : List Char) (topK : Nat) (hasKey : Bool)
    (results : List QueryMatch) : RagOutcome :=
  -- topK only parameterises the external retrieval that produced `results`
  let _ := topK
  let context := buildContext results
  let sources := collectSources results
  if (trim context).isEmpty then
    .canned noDocsMsg []
  else if !hasKey then
    .failed geminiKeyMsg
  else
    .generated (buildPrompt context query) (dedupFirst [] sources)

/-- A validated conversation turn as the chat route's filter produces. -/
structure ChatMsg where
  isUser : Bool
  content : List Char
  deriving DecidableEq, Repr

/-- Model of `POST` in `app/api/chat/route.ts`: the route validates and
filters `conversationHistory` into `history`, then executes
`queryRAG(message, 5, history)`.  `queryRAG` declares only
`(query, topK)`, so in JavaScript the third argument is ignored: the call
evaluates `queryRAG message 5` and `history` is dropped. -/
def chatRoutePOST (message : List Char) (history : List ChatMsg) (hasKey : Bool)
    (results : List QueryMatch) : RagOutcome :=
  let _ := history
  queryRAG message 5 hasKey results

example :
    queryRAG "q".toList 5 true [] = .canned noDocsMsg [] := by decide

set_option maxRecDepth 4096 in
example :
    queryRAG "q".toList 5 true
      [⟨some { text := some "ctx".toList, source := some "a.txt".toList }⟩,
       ⟨some { text := some "more".toList, source := some "a.txt".toList }⟩] =
    .generated (buildPrompt ("ctx".toList ++ "\n\n".toList ++ "more".toList) "q".toList)
      ["a.txt".toList] := by decide

/-- The adjacency relation of C4: the next chunk begins with the last
`co` characters of the previous one. -/
def overlapRel (co : Nat) (a b : List Char) : Prop :=
  b.take co = a.drop (a.length - co)

/-- Invariant of the `getUniqueDocuments` fold after processing the
aggregated records `done`: the map keys are the distinct `documentId`s in
first-seen order, each entry counts its records, and (when every one of
its records carries a truthy `createdAt`) each entry holds the
lexicographically least `createdAt` among them. -/
def aggInv (done : List (List Char × MetaBag))
    (m : List (List Char × DocAgg)) : Prop :=
  m.map Prod.fst = dedupFirst [] (done.map Prod.fst) ∧
  ∀ k a, lookupAgg k m = some a →
    a.chunkCount = done.countP (fun r => decide (r.1 = k)) ∧
    ((∀ r ∈ done, r.1 = k → jsTruthy r.2.createdAt = true) →
      a.createdAt ∈ cAts k done ∧
      ∀ c ∈ cAts k done, jsStrLt c a.createdAt = false)

/-- A concrete two-chunk index content used as a test fixture. -/
def sampleVecs : List FetchedVec :=
  [⟨"D-chunk-0".toList,
     some { source := some "a".toList, documentId := some "D".toList,
            createdAt := some "2".toList }⟩,
   ⟨"D-chunk-1".toList,
     some { source := some "a".toList, documentId := some "D".toList,
            createdAt := some "1".toList }⟩]

/-!
## Claims
-/

/-- C1: the claim states that the answer operation incorporates the prior
conversation turns so the generation input depends on the supplied
history.  It does not: `queryRAG` declares only `(query, topK)`, so the
chat route's call `queryRAG(message, 5, history)` silently drops the
validated history, and the outcome — including the exact generation
prompt — is identical for any two histories. -/
theorem chatRoute_result_ignores_history (message : List Char) (hasKey : Bool)
    (results : List QueryMatch) (h1 h2 : List ChatMsg) :
    chatRoutePOST message h1 hasKey results = chatRoutePOST message h2 hasKey results :=
  rfl

/-- C2 amended: after `getPineconeIndex` returns successfully with the
create call itself succeeding, the target index exists with dimension
`EMBEDDING_DIMENSION`: an absent index is created with that dimension, an
existing index with a differing dimension is deleted and recreated with
that dimension, and an existing index with the matching dimension is
reused with the state unchanged.  An "already exists" failure thrown by
the create is still treated as success rather than propagated — but on
that race path the function returns without re-checking the dimension,
so the declared dimension is whatever the concurrent creation installed
(see the counterexample to the original claim's headline). -/
theorem getPineconeIndex_spec (name : List Char) (st : IndexState) (racerDim : Nat) :
    (lookupIndex name st = none →
      getPineconeIndex name st none racerDim = .ok ((name, EMBEDDING_DIMENSION) :: st)) ∧
    (∀ d, lookupIndex name st = some d → d ≠ EMBEDDING_DIMENSION →
      getPineconeIndex name st none racerDim =
        .ok ((name, EMBEDDING_DIMENSION) :: eraseIndex name st)) ∧
    (lookupIndex name st = some EMBEDDING_DIMENSION →
      getPineconeIndex name st none racerDim = .ok st) ∧
    (∀ st', getPineconeIndex name st none racerDim = .ok st' →
      lookupIndex name st' = some EMBEDDING_DIMENSION) ∧
    (∀ msg, containsSub alreadyExistsStr msg = true →
      ∃ st', getPineconeIndex name st (some msg) racerDim = .ok st') := by
  unfold getPineconeIndex
  refine ⟨?_, ?_, ?_, ?_, ?_⟩
  · intro h; simp [h]
  · intro d hd hne; simp [hd, hne]
  · intro h; simp [h]
  · intro st' h
    cases hl : lookupIndex name st with
    | none =>
      simp [hl] at h
      subst h; simp [lookupIndex]
    | some d =>
      by_cases hd : d = EMBEDDING_DIMENSION
      · subst hd; simp [hl] at h; subst h; exact hl
      · simp [hl, hd] at h; subst h; simp [lookupIndex]
  · intro msg hmsg
    cases hl : lookupIndex name st with
    | none => exact ⟨(name, racerDim) :: st, by simp [hl, hmsg]⟩
    | some d =>
      by_cases hd : d = EMBEDDING_DIMENSION
      · subst hd; exact ⟨st, by simp [hl]⟩
      · exact ⟨(name, racerDim) :: eraseIndex name st, by simp [hl, hd, hmsg]⟩

/-- C2 fails as stated: on the tolerated "already exists" race path the
call returns successfully, yet the declared dimension of the index that
now exists is whatever the concurrent creation installed — here `512`,
not `EMBEDDING_DIMENSION` — because the source returns the index handle
after swallowing the conflict without re-checking the dimension. -/
theorem getPineconeIndex_race_dimension_counterexample :
    getPineconeIndex "idx".toList [] (some alreadyExistsStr) 512 =
      .ok [("idx".toList, 512)] ∧
    lookupIndex "idx".toList [("idx".toList, 512)] = some 512 ∧
    ¬ (512 = EMBEDDING_DIMENSION) :=
  ⟨rfl, rfl, by decide⟩

/-- Witness for C2 at concrete inputs. -/
theorem getPineconeIndex_spec_witness :
    getPineconeIndex "idx".toList [] none 0 = .ok [("idx".toList, 768)] ∧
    getPineconeIndex "idx".toList [("idx".toList, 512)] none 0 =
      .ok [("idx".toList, 768)] ∧
    getPineconeIndex "idx".toList [("idx".toList, 768)] none 0 =
      .ok [("idx".toList, 768)] ∧
    (∃ st', getPineconeIndex "idx".toList [] (some alreadyExistsStr) 512 = .ok st') :=
  ⟨(getPineconeIndex_spec "idx".toList [] 0).1 (by decide),
   (getPineconeIndex_spec "idx".toList [("idx".toList, 512)] 0).2.1 512
     (by decide) (by decide),
   (getPineconeIndex_spec "idx".toList [("idx".toList, 768)] 0).2.2.1 (by decide),
   (getPineconeIndex_spec "idx".toList [] 512).2.2.2.2 alreadyExistsStr (by decide)⟩

/-- C5: whenever the concatenated retrieved context is empty or
whitespace-only, `queryRAG` returns the canned "no documents loaded"
response with an empty source list; the outcome is `canned`, i.e. no
generation call is made on that request. -/
theorem queryRAG_no_context_canned (query : List Char) (topK : Nat) (hasKey : Bool)
    (results : List QueryMatch)
    (h : (trim (buildContext results)).isEmpty = true) :
    queryRAG query topK hasKey results = .canned noDocsMsg [] := by
  unfold queryRAG
  simp [h]

/-- Witness for C5: a query over an empty retrieval result set. -/
theorem queryRAG_no_context_canned_witness :
    queryRAG "hello".toList 5 true [] = .canned noDocsMsg [] :=
  queryRAG_no_context_canned "hello".toList 5 true [] (by decide)

/-- C10: for empty or whitespace-only text, ingestion fails rather than
succeeding with zero records: `chunkText` returns the empty sequence,
`generateEmbeddings` rejects the empty texts array, and `processDocument`
propagates that error, so no upsert payload is produced. -/
theorem processDocument_empty_text_fails {α : Type}
    (oracle : GTaskType → List Char → α) (text source documentId now : List Char)
    (h : (trim text).isEmpty = true) :
    chunkText text 1000 200 = some [] ∧
    generateEmbeddings true oracle [] GTaskType.RETRIEVAL_DOCUMENT =
      .error emptyTextsMsg ∧
    processDocument true oracle text source documentId now =
      some (.error emptyTextsMsg) := by
  have hct : chunkText text 1000 200 = some [] := by
    unfold chunkText
    simp [h]
  refine ⟨hct, rfl, ?_⟩
  unfold processDocument
  rw [hct]
  rfl

/-- Witness for C10 at a whitespace-only text. -/
theorem processDocument_empty_text_fails_witness :
    chunkText "  ".toList 1000 200 = some [] ∧
    generateEmbeddings true (fun _ _ => (0 : Nat)) [] GTaskType.RETRIEVAL_DOCUMENT =
      .error emptyTextsMsg ∧
    processDocument true (fun _ _ => (0 : Nat)) "  ".toList "a.txt".toList
      "doc1".toList "2024-01-01".toList = some (.error emptyTextsMsg) :=
  processDocument_empty_text_fails (fun _ _ => (0 : Nat)) "  ".toList
    "a.txt".toList "doc1".toList "2024-01-01".toList (by decide)

/-- Helper: after removing the entries whose id satisfies `p`, no listed
id satisfies `p` any more. -/
theorem filter_ids_after_delete {α : Type} (p : List Char → Bool)
    (st : List (List Char × α)) :
    ((st.filter (fun e => !(p e.1))).map Prod.fst).filter p = [] := by
  induction st with
  | nil => simp
  | cons e rest ih =>
    rw [List.filter_cons]
    cases h : p e.1 with
    | true =>
      simp only [h, Bool.not_true, Bool.false_eq_true, if_false]
      exact ih
    | false =>
      simp only [h, Bool.not_false, if_true, List.map_cons, List.filter_cons,
        Bool.false_eq_true]
      exact ih

/-- Helper: a state none of whose ids satisfies `p` is unchanged by
filtering out the entries whose id satisfies `p`. -/
theorem filter_not_id_eq_self {α : Type} (p : List Char → Bool)
    (l : List (List Char × α)) (hl : (l.map Prod.fst).filter p = []) :
    l.filter (fun e => !(p e.1)) = l := by
  rw [List.filter_eq_self]
  intro e he
  have hfalse : p e.1 = false := by
    by_contra hc
    simp only [Bool.not_eq_false] at hc
    have : e.1 ∈ (l.map Prod.fst).filter p :=
      List.mem_filter.mpr ⟨List.mem_map.mpr ⟨e, he, rfl⟩, hc⟩
    simp [hl] at this
  simp [hfalse]

/-- Helper: both branches of `deleteDocumentVectors` compute the same
filtered state and matching-id count. -/
theorem deleteDocumentVectors_eq {α : Type} (documentId : List Char)
    (st : List (List Char × α)) :
    deleteDocumentVectors documentId st =
      (st.filter (fun e => !((documentId ++ chunkKeySep).isPrefixOf e.1)),
       ((st.map Prod.fst).filter
         (fun id => (documentId ++ chunkKeySep).isPrefixOf id)).length) := by
  unfold deleteDocumentVectors
  by_cases h : ((st.map Prod.fst).filter
      (fun id => (documentId ++ chunkKeySep).isPrefixOf id)).length = 0
  · rw [if_pos h, h]
    have h0 : (st.map Prod.fst).filter
        (fun id => (documentId ++ chunkKeySep).isPrefixOf id) = [] :=
      List.length_eq_zero.mp h
    rw [filter_not_id_eq_self _ _ h0]
  · rw [if_neg h]

/-- C8: `deleteDocumentVectors` removes exactly the records whose id bears
the prefix `documentId ++ "-chunk-"` and returns their count; records not
bearing that prefix survive unchanged; when no id matches it returns the
state unchanged with count `0`; and a second call on the resulting state
returns `0`. -/
theorem deleteDocumentVectors_spec {α : Type} (documentId : List Char)
    (st : List (List Char × α)) :
    ((deleteDocumentVectors documentId st).1 =
      st.filter (fun e => !((documentId ++ chunkKeySep).isPrefixOf e.1))) ∧
    ((deleteDocumentVectors documentId st).2 =
      ((st.map Prod.fst).filter
        (fun id => (documentId ++ chunkKeySep).isPrefixOf id)).length) ∧
    (((st.map Prod.fst).filter
        (fun id => (documentId ++ chunkKeySep).isPrefixOf id)) = [] →
      deleteDocumentVectors documentId st = (st, 0)) ∧
    ((deleteDocumentVectors documentId
        ((deleteDocumentVectors documentId st).1)).2 = 0) := by
  refine ⟨by rw [deleteDocumentVectors_eq], by rw [deleteDocumentVectors_eq], ?_, ?_⟩
  · intro h
    rw [deleteDocumentVectors_eq, filter_not_id_eq_self _ _ h, h]
    rfl
  · rw [deleteDocumentVectors_eq, deleteDocumentVectors_eq]
    simp only
    rw [filter_ids_after_delete]
    rfl

/-- Witness for C8: deleting a document with no matching chunk keys
leaves the single foreign record untouched and returns `0`. -/
theorem deleteDocumentVectors_spec_witness :
    deleteDocumentVectors "doc".toList [("other-chunk-0".toList, 0)] =
      ([("other-chunk-0".toList, (0 : Nat))], 0) :=
  (deleteDocumentVectors_spec "doc".toList
    [("other-chunk-0".toList, (0 : Nat))]).2.2.1 (by decide)

/-- C3 fails as stated: `" "` has length at most `5`, yet
`chunkText " " 5 2` returns the empty sequence, not one chunk equal to
`" ".trim()` (which would be the singleton list holding the empty
string). -/
theorem chunkText_short_text_counterexample :
    " ".toList.length ≤ 5 ∧
    chunkText " ".toList 5 2 = some [] ∧
    (some [] : Option (List (List Char))) ≠ some [trim " ".toList] := by
  decide

/-- C3 amended: for every text with some non-whitespace content (so that
its trim is non-empty) and length at most `maxSize`, `chunkText` returns
exactly one chunk, equal to `text.trim()`.  (A whitespace-only text
instead yields the empty sequence, per the source's early return.) -/
theorem chunkText_single_chunk (text : List Char) (cs co : Nat)
    (hne : trim text ≠ []) (hlen : text.length ≤ cs) :
    chunkText text cs co = some [trim text] := by
  have htne : text ≠ [] := by
    intro h
    exact hne (by simp [h, trim])
  have hlen0 : 0 < text.length := List.length_pos.mpr htne
  unfold chunkText
  have hguard : (text.isEmpty || (trim text).isEmpty) = false := by
    simp [List.isEmpty_iff, htne, hne]
  rw [hguard]
  simp only [Bool.false_eq_true, if_false]
  obtain ⟨n, hn⟩ : ∃ n, text.length = n + 1 :=
    ⟨text.length - 1, by omega⟩
  rw [hn]
  simp only [chunkLoop]
  rw [if_pos (by omega : 0 < text.length)]
  have hmin : min (0 + cs) text.length = text.length := by omega
  rw [hmin]
  rw [if_neg (by omega : ¬ text.length < text.length)]
  simp [hne]

/-- Witness for C3's amended theorem. -/
theorem chunkText_single_chunk_witness :
    chunkText " hi ".toList 10 2 = some [trim " hi ".toList] :=
  chunkText_single_chunk " hi ".toList 10 2 (by decide) (by decide)

/-- Helper: `mapWithIndex` preserves length. -/
theorem mapWithIndex_length {α β : Type} (f : Nat → α → β) :
    ∀ (j : Nat) (l : List α), (mapWithIndex f j l).length = l.length := by
  intro j l
  induction l generalizing j with
  | nil => rfl
  | cons a l ih => simp [mapWithIndex, ih]

/-- Helper: element `i` of `mapWithIndex f j l` is `f (j + i)` of element
`i` of `l`. -/
theorem mapWithIndex_get? {α β : Type} (f : Nat → α → β) :
    ∀ (l : List α) (j i : Nat),
      (mapWithIndex f j l).get? i = (l.get? i).map (f (j + i)) := by
  intro l
  induction l with
  | nil => intro j i; rfl
  | cons a l ih =>
    intro j i
    cases i with
    | zero => rfl
    | succ i =>
      have harith : j + 1 + i = j + (i + 1) := by omega
      show (mapWithIndex f (j + 1) l).get? i = (l.get? i).map (f (j + (i + 1)))
      rw [ih (j + 1) i, harith]

/-- C6: on text whose chunking is non-empty, `processDocument` produces
one upsert payload containing exactly one record per chunk of
`chunkText(text, 1000, 200)`: record `i` has id
`documentId ++ "-chunk-" ++ i`, its vector is element `i` of the single
batched embedding call over all chunks tagged `RETRIEVAL_DOCUMENT`, and
its metadata holds the chunk text, source, chunk index, document id and
the ingestion timestamp. -/
theorem processDocument_spec {α : Type} (oracle : GTaskType → List Char → α)
    (text source documentId now : List Char) (chunks : List (List Char))
    (hch : chunkText text 1000 200 = some chunks) (hne : chunks ≠ []) :
    ∃ R, processDocument true oracle text source documentId now = some (.ok R) ∧
      R.length = chunks.length ∧
      ∀ i chunk, chunks.get? i = some chunk →
        R.get? i = some
          { id := documentId ++ chunkKeySep ++ (Nat.repr i).toList
            values := some (oracle GTaskType.RETRIEVAL_DOCUMENT chunk)
            metadata :=
              { text := chunk
                source := source
                chunkIndex := i
                documentId := documentId
                createdAt := now } } := by
  have hemb : generateEmbeddings true oracle chunks GTaskType.RETRIEVAL_DOCUMENT =
      .ok (chunks.map (oracle GTaskType.RETRIEVAL_DOCUMENT)) := by
    unfold generateEmbeddings
    simp [List.isEmpty_iff, hne]
  refine ⟨mapWithIndex (fun index chunk =>
      { id := documentId ++ chunkKeySep ++ (Nat.repr index).toList
        values := (chunks.map (oracle GTaskType.RETRIEVAL_DOCUMENT)).get? index
        metadata :=
          { text := chunk
            source := source
            chunkIndex := index
            documentId := documentId
            createdAt := now } }) 0 chunks, ?_, mapWithIndex_length _ 0 chunks, ?_⟩
  · unfold processDocument
    rw [hch, Option.map_some', hemb]
  · intro i chunk hget
    rw [mapWithIndex_get?, hget, Option.map_some']
    have hvals : (chunks.map (oracle GTaskType.RETRIEVAL_DOCUMENT)).get? i =
        some (oracle GTaskType.RETRIEVAL_DOCUMENT chunk) := by
      rw [List.get?_map, hget, Option.map_some']
    simp only [Nat.zero_add, hvals]

/-- Witness for C6 on a one-chunk document. -/
theorem processDocument_spec_witness :
    ∃ R, processDocument true (fun _ _ => (0 : Nat)) "hello".toList "a.txt".toList
        "doc1".toList "t0".toList = some (.ok R) ∧
      R.length = ["hello".toList].length ∧
      ∀ i chunk, ["hello".toList].get? i = some chunk →
        R.get? i = some
          { id := "doc1".toList ++ chunkKeySep ++ (Nat.repr i).toList
            values := some 0
            metadata :=
              { text := chunk
                source := "a.txt".toList
                chunkIndex := i
                documentId := "doc1".toList
                createdAt := "t0".toList } } :=
  processDocument_spec (fun _ _ => (0 : Nat)) "hello".toList "a.txt".toList
    "doc1".toList "t0".toList ["hello".toList] (by decide) (by decide)

/-- Helper: `Option.map` preserves `isSome`. -/
theorem optionMap_isSome {α β : Type} (f : α → β) (o : Option α) :
    (o.map f).isSome = o.isSome := by
  cases o <;> rfl

/-- Helper: with `chunkOverlap < chunkSize`, every iteration of the scan
loop strictly advances the cursor (by `breakPoint + 1 ≥ 1` on a boundary
cut, by `chunkSize - chunkOverlap ≥ 1` otherwise) or ends the loop, so
fuel exceeding the remaining distance suffices. -/
theorem chunkLoop_isSome (t : List Char) (cs co : Nat) (hco : co < cs) :
    ∀ (fuel start : Nat), t.length - start < fuel →
      (chunkLoop t cs co fuel start).isSome = true := by
  intro fuel
  induction fuel with
  | zero => intro start h; omega
  | succ n ih =>
    intro start h
    rw [chunkLoop]
    by_cases hs : start < t.length
    · rw [if_pos hs]
      dsimp only
      by_cases he : min (start + cs) t.length < t.length
      · rw [if_pos he]
        set bp : Int := max
          (lastIndexOf ((t.drop start).take (min (start + cs) t.length - start)) '.')
          (lastIndexOf ((t.drop start).take (min (start + cs) t.length - start)) '\n')
          with hbp
        by_cases hcond : 2 * bp > (cs : Int)
        · rw [if_pos hcond, optionMap_isSome]
          exact ih (start + (bp.toNat + 1)) (by omega)
        · rw [if_neg hcond, optionMap_isSome]
          exact ih (start + (cs - co)) (by omega)
      · rw [if_neg he]
        rfl
    · rw [if_neg hs]
      rfl

/-- Helper: with `chunkOverlap = chunkSize` and no sentence boundary, the
cursor never advances: the loop runs out of any amount of fuel. -/
theorem chunkLoop_overlap_eq_size_diverges :
    ∀ fuel, chunkLoop "aaa".toList 2 2 fuel 0 = none := by
  intro fuel
  induction fuel with
  | zero => rfl
  | succ n ih =>
    show (chunkLoop "aaa".toList 2 2 n 0).map
      (fun rest => trim ("aa".toList) :: rest) = none
    rw [ih]
    rfl

/-- C9: for every text and every `chunkOverlap < chunkSize`, `chunkText`
terminates (each iteration advances the cursor, so fuel `length + 1`
suffices and the computation yields a value); when
`chunkOverlap ≥ chunkSize` the advance guarantee fails: on a
boundary-free text the cursor stays put and the loop exhausts any amount
of fuel, i.e. it never terminates. -/
theorem chunkText_termination :
    (∀ (t : List Char) (cs co : Nat), co < cs →
      (chunkText t cs co).isSome = true) ∧
    (∀ fuel, chunkLoop "aaa".toList 2 2 fuel 0 = none) ∧
    chunkText "aaa".toList 2 2 = none := by
  refine ⟨?_, chunkLoop_overlap_eq_size_diverges, by decide⟩
  intro t cs co hco
  unfold chunkText
  by_cases hg : (t.isEmpty || (trim t).isEmpty) = true
  · rw [if_pos hg]; rfl
  · rw [if_neg hg, optionMap_isSome]
    exact chunkLoop_isSome t cs co hco (t.length + 1) 0 (by omega)

/-- Witness for C9's termination half at concrete inputs. -/
theorem chunkText_termination_witness :
    (chunkText "abcdef".toList 3 1).isSome = true :=
  chunkText_termination.1 "abcdef".toList 3 1 (by decide)

/-- Helper: `dropWhile` is the identity when no element satisfies `p`. -/
theorem dropWhile_eq_self_of (p : Char → Bool) (l : List Char)
    (h : ∀ c ∈ l, p c = false) : l.dropWhile p = l := by
  cases l with
  | nil => rfl
  | cons a l =>
    rw [List.dropWhile_cons]
    simp [h a (List.mem_cons_self a l)]

/-- Helper: `trim` is the identity on whitespace-free strings. -/
theorem trim_eq_self_of (l : List Char) (h : ∀ c ∈ l, isSpace c = false) :
    trim l = l := by
  unfold trim
  rw [dropWhile_eq_self_of _ _ h]
  rw [dropWhile_eq_self_of _ _ (fun c hc => h c (List.mem_reverse.mp hc))]
  exact List.reverse_reverse l

/-- Helper: `lastIndexOf` yields `-1` when the character does not occur. -/
theorem lastIndexOf_eq_neg_one (l : List Char) (c : Char)
    (h : ∀ x ∈ l, x ≠ c) : lastIndexOf l c = -1 := by
  unfold lastIndexOf
  have hnone : l.reverse.findIdx? (· = c) = none :=
    List.findIdx?_eq_none_iff.mpr (fun x hx => by
      simp [h x (List.mem_reverse.mp hx)])
  rw [hnone]

/-- Helper: full characterisation of the scan loop on boundary-free,
whitespace-free text: it succeeds, every produced chunk is a non-empty
fixed-width window, consecutive chunks satisfy `overlapRel co`, the head
chunk is the window at `start`, and the result is empty exactly when the
scan is already past the end. -/
theorem chunkLoop_fixed (t : List Char) (cs co : Nat) (hco : co < cs)
    (hb : ∀ c ∈ t, c ≠ '.' ∧ c ≠ '\n' ∧ isSpace c = false) :
    ∀ (fuel start : Nat), t.length - start < fuel →
      ∃ chunks, chunkLoop t cs co fuel start = some chunks ∧
        (∀ c ∈ chunks, c ≠ []) ∧
        List.Chain' (overlapRel co) chunks ∧
        (∀ c, chunks.head? = some c →
          c = (t.drop start).take (min cs (t.length - start))) ∧
        (chunks = [] ↔ t.length ≤ start) := by
  intro fuel
  induction fuel with
  | zero => intro start h; omega
  | succ n ih =>
    intro start h
    rw [chunkLoop]
    by_cases hs : start < t.length
    · rw [if_pos hs]
      dsimp only
      have hsub : ∀ c ∈ (t.drop start).take (min (start + cs) t.length - start),
          c ∈ t := fun c hc =>
        List.drop_subset start t (List.take_subset _ _ hc)
      have hchne : (t.drop start).take (min (start + cs) t.length - start) ≠ [] := by
        have hlen : ((t.drop start).take (min (start + cs) t.length - start)).length
            = min (min (start + cs) t.length - start) (t.length - start) := by
          rw [List.length_take, List.length_drop]
        intro hnil
        rw [hnil] at hlen
        simp only [List.length_nil] at hlen
        omega
      have htrim : trim ((t.drop start).take (min (start + cs) t.length - start)) =
          (t.drop start).take (min (start + cs) t.length - start) :=
        trim_eq_self_of _ (fun c hc => (hb c (hsub c hc)).2.2)
      by_cases he : min (start + cs) t.length < t.length
      · rw [if_pos he]
        have hbp1 : lastIndexOf
            ((t.drop start).take (min (start + cs) t.length - start)) '.' = -1 :=
          lastIndexOf_eq_neg_one _ _ (fun x hx => (hb x (hsub x hx)).1)
        have hbp2 : lastIndexOf
            ((t.drop start).take (min (start + cs) t.length - start)) '\n' = -1 :=
          lastIndexOf_eq_neg_one _ _ (fun x hx => (hb x (hsub x hx)).2.1)
        rw [hbp1, hbp2]
        have hmaxneg : (max (-1 : Int) (-1) : Int) = -1 := by decide
        rw [hmaxneg]
        rw [if_neg (by omega : ¬ (2 * (-1 : Int) > (cs : Int)))]
        have hstart' : t.length - (start + (cs - co)) < n := by omega
        obtain ⟨rest, hrest, hrne, hrchain, hrhead, hriff⟩ :=
          ih (start + (cs - co)) hstart'
        rw [hrest]
        have hsclt : start + cs < t.length := by omega
        have hwin : min (start + cs) t.length - start = cs := by omega
        refine ⟨_, rfl, ?_, ?_, ?_, ?_⟩
        · intro c hc
          rcases List.mem_cons.mp hc with hc | hc
          · rw [hc, htrim]; exact hchne
          · exact hrne c hc
        · rw [htrim]
          rw [List.chain'_cons']
          refine ⟨?_, hrchain⟩
          intro y hy
          have hyw := hrhead y hy
          unfold overlapRel
          rw [hyw, hwin]
          have hlenck : ((t.drop start).take cs).length = cs := by
            rw [List.length_take, List.length_drop]
            omega
          rw [hlenck]
          rw [List.take_take]
          have hcole : min co (min cs (t.length - (start + (cs - co)))) = co := by
            omega
          rw [hcole]
          rw [List.drop_take]
          have hcsub : cs - (cs - co) = co := by omega
          rw [hcsub]
          rw [List.drop_drop]
        · intro c hc
          simp only [List.head?_cons, Option.some.injEq] at hc
          rw [← hc, htrim, hwin]
          congr 1
          omega
        · constructor
          · intro hcontr; exact absurd hcontr (List.cons_ne_nil _ _)
          · intro hcontr; omega
      · rw [if_neg he]
        have hwin : min (start + cs) t.length - start = t.length - start := by omega
        refine ⟨_, rfl, ?_, ?_, ?_, ?_⟩
        · intro c hc
          rcases List.mem_cons.mp hc with hc | hc
          · rw [hc, htrim]; exact hchne
          · simp at hc
        · rw [htrim]; exact List.chain'_singleton _
        · intro c hc
          simp only [List.head?_cons, Option.some.injEq] at hc
          rw [← hc, htrim, hwin]
          congr 1
          omega
        · constructor
          · intro hcontr; exact absurd hcontr (List.cons_ne_nil _ _)
          · intro hcontr; omega
    · rw [if_neg hs]
      exact ⟨[], rfl, by simp, List.chain'_nil, by simp, by simp; omega⟩

/-- C4: on a text containing no `'.'`, no newline and no whitespace (so
trimming is the identity on every cut window), any two consecutive chunks
of `chunkText text maxSize overlap` (with `overlap < maxSize`) share
exactly `overlap` characters at the boundary: each chunk after the first
begins with the last `overlap` characters of its predecessor. -/
theorem chunkText_consecutive_overlap (t : List Char) (cs co : Nat)
    (hco : co < cs)
    (hb : ∀ c ∈ t, c ≠ '.' ∧ c ≠ '\n' ∧ isSpace c = false)
    (chunks : List (List Char)) (hch : chunkText t cs co = some chunks) :
    List.Chain' (overlapRel co) chunks := by
  unfold chunkText at hch
  by_cases hg : (t.isEmpty || (trim t).isEmpty) = true
  · rw [if_pos hg] at hch
    injection hch with hch
    rw [← hch]
    exact List.chain'_nil
  · rw [if_neg hg] at hch
    obtain ⟨cl, hcl, hclne, hclchain, _, _⟩ :=
      chunkLoop_fixed t cs co hco hb (t.length + 1) 0 (by omega)
    rw [hcl] at hch
    simp only [Option.map_some', Option.some.injEq] at hch
    have hfil : cl.filter (fun c => !c.isEmpty) = cl := by
      rw [List.filter_eq_self]
      intro c hc
      simp [List.isEmpty_iff, hclne c hc]
    rw [hfil] at hch
    rw [← hch]
    exact hclchain

/-- Witness for C4 on a boundary-free text. -/
theorem chunkText_consecutive_overlap_witness :
    List.Chain' (overlapRel 1) ["abcd".toList, "defg".toList, "gh".toList] :=
  chunkText_consecutive_overlap "abcdefgh".toList 4 1 (by decide) (by decide)
    ["abcd".toList, "defg".toList, "gh".toList] (by decide)

/-- Helper: `jsStrLt` is irreflexive. -/
theorem jsStrLt_irrefl : ∀ l : List Char, jsStrLt l l = false := by
  intro l
  induction l with
  | nil => rfl
  | cons a as ih =>
    unfold jsStrLt
    rw [if_neg (lt_irrefl a), if_neg (lt_irrefl a)]
    exact ih

/-- Helper: `jsStrLt` is transitive. -/
theorem jsStrLt_trans : ∀ a b c : List Char,
    jsStrLt a b = true → jsStrLt b c = true → jsStrLt a c = true := by
  intro a
  induction a with
  | nil =>
    intro b c hab hbc
    cases b with
    | nil => exact absurd hab (by simp [jsStrLt])
    | cons y ys =>
      cases c with
      | nil => exact absurd hbc (by simp [jsStrLt])
      | cons z zs => rfl
  | cons x xs ih =>
    intro b c hab hbc
    cases b with
    | nil => exact absurd hab (by simp [jsStrLt])
    | cons y ys =>
      cases c with
      | nil => exact absurd hbc (by simp [jsStrLt])
      | cons z zs =>
        unfold jsStrLt at hab hbc ⊢
        rcases lt_trichotomy x y with hxy | hxy | hxy
        · rcases lt_trichotomy y z with hyz | hyz | hyz
          · rw [if_pos (lt_trans hxy hyz)]
          · subst hyz
            rw [if_pos hxy]
          · rw [if_neg (lt_asymm hyz), if_pos hyz] at hbc
            exact absurd hbc (by simp)
        · subst hxy
          rw [if_neg (lt_irrefl x), if_neg (lt_irrefl x)] at hab
          rcases lt_trichotomy x z with hxz | hxz | hxz
          · rw [if_pos hxz]
          · subst hxz
            rw [if_neg (lt_irrefl x), if_neg (lt_irrefl x)] at hbc ⊢
            exact ih ys zs hab hbc
          · rw [if_neg (lt_asymm hxz), if_pos hxz] at hbc
            exact absurd hbc (by simp)
        · rw [if_neg (lt_asymm hxy), if_pos hxy] at hab
          exact absurd hab (by simp)

/-- Helper: membership in `dedupFirst`. -/
theorem mem_dedupFirst {α : Type} [DecidableEq α] :
    ∀ (l seen : List α) (x : α),
      x ∈ dedupFirst seen l ↔ x ∉ seen ∧ x ∈ l := by
  intro l
  induction l with
  | nil => intro seen x; simp [dedupFirst]
  | cons a l ih =>
    intro seen x
    unfold dedupFirst
    by_cases ha : a ∈ seen
    · rw [if_pos ha, ih]
      constructor
      · rintro ⟨hx1, hx2⟩; exact ⟨hx1, List.mem_cons_of_mem a hx2⟩
      · rintro ⟨hx1, hx2⟩
        rcases List.mem_cons.mp hx2 with hx2 | hx2
        · exact absurd (hx2 ▸ ha) hx1
        · exact ⟨hx1, hx2⟩
    · rw [if_neg ha]
      constructor
      · intro hx
        rcases List.mem_cons.mp hx with hx | hx
        · exact ⟨hx ▸ ha, hx ▸ List.mem_cons_self a l⟩
        · obtain ⟨hx1, hx2⟩ := (ih (a :: seen) x).mp hx
          exact ⟨fun hc => hx1 (List.mem_cons_of_mem a hc), List.mem_cons_of_mem a hx2⟩
      · rintro ⟨hx1, hx2⟩
        rcases List.mem_cons.mp hx2 with hx2 | hx2
        · exact hx2 ▸ List.mem_cons_self a _
        · by_cases hxa : x = a
          · exact hxa ▸ List.mem_cons_self a _
          · exact List.mem_cons_of_mem a ((ih (a :: seen) x).mpr
              ⟨fun hc => (List.mem_cons.mp hc).elim hxa hx1, hx2⟩)

/-- Helper: `dedupFirst` has no duplicates. -/
theorem nodup_dedupFirst {α : Type} [DecidableEq α] :
    ∀ (l seen : List α), (dedupFirst seen l).Nodup := by
  intro l
  induction l with
  | nil => intro seen; simp [dedupFirst]
  | cons a l ih =>
    intro seen
    unfold dedupFirst
    by_cases ha : a ∈ seen
    · rw [if_pos ha]; exact ih seen
    · rw [if_neg ha]
      refine List.nodup_cons.mpr ⟨?_, ih (a :: seen)⟩
      intro hmem
      exact ((mem_dedupFirst l (a :: seen) a).mp hmem).1 (List.mem_cons_self a seen)

/-- Helper: appending an already-present key does not change `dedupFirst`. -/
theorem dedupFirst_append_mem {α : Type} [DecidableEq α] :
    ∀ (l seen : List α) (x : α), (x ∈ seen ∨ x ∈ l) →
      dedupFirst seen (l ++ [x]) = dedupFirst seen l := by
  intro l
  induction l with
  | nil =>
    intro seen x hx
    have hxs : x ∈ seen := hx.elim id (by simp)
    simp [dedupFirst, hxs]
  | cons a l ih =>
    intro seen x hx
    rw [List.cons_append]
    unfold dedupFirst
    by_cases ha : a ∈ seen
    · rw [if_pos ha, if_pos ha]
      refine ih seen x ?_
      rcases hx with hx | hx
      · exact Or.inl hx
      · rcases List.mem_cons.mp hx with hx | hx
        · exact Or.inl (hx ▸ ha)
        · exact Or.inr hx
    · rw [if_neg ha, if_neg ha]
      rw [ih (a :: seen) x ?_]
      rcases hx with hx | hx
      · exact Or.inl (List.mem_cons_of_mem a hx)
      · rcases List.mem_cons.mp hx with hx | hx
        · exact Or.inl (hx ▸ List.mem_cons_self a seen)
        · exact Or.inr hx

/-- Helper: appending a fresh key appends it to `dedupFirst`. -/
theorem dedupFirst_append_new {α : Type} [DecidableEq α] :
    ∀ (l seen : List α) (x : α), x ∉ seen → x ∉ l →
      dedupFirst seen (l ++ [x]) = dedupFirst seen l ++ [x] := by
  intro l
  induction l with
  | nil => intro seen x hxs hxl; simp [dedupFirst, hxs]
  | cons a l ih =>
    intro seen x hxs hxl
    have hxa : x ≠ a := fun hc => hxl (hc ▸ List.mem_cons_self a l)
    have hxl' : x ∉ l := fun hc => hxl (List.mem_cons_of_mem a hc)
    rw [List.cons_append]
    unfold dedupFirst
    by_cases ha : a ∈ seen
    · rw [if_pos ha, if_pos ha]
      exact ih seen x hxs hxl'
    · rw [if_neg ha, if_neg ha]
      rw [ih (a :: seen) x (fun hc => (List.mem_cons.mp hc).elim hxa hxs) hxl']
      rfl

/-- Helper: unfolding `lookupAgg` one entry at a time. -/
theorem lookupAgg_cons (k k2 : List Char) (v : DocAgg)
    (rest : List (List Char × DocAgg)) :
    lookupAgg k ((k2, v) :: rest) = if k2 = k then some v else lookupAgg k rest :=
  rfl

/-- Helper: unfolding `updateAgg` one entry at a time. -/
theorem updateAgg_cons (k : List Char) (f : DocAgg → DocAgg) (k2 : List Char)
    (v : DocAgg) (rest : List (List Char × DocAgg)) :
    updateAgg k f ((k2, v) :: rest) =
      if k2 = k then (k2, f v) :: rest else (k2, v) :: updateAgg k f rest :=
  rfl

/-- Helper: updating a key maps its stored value and nothing else. -/
theorem lookupAgg_updateAgg_self (k : List Char) (f : DocAgg → DocAgg) :
    ∀ m, lookupAgg k (updateAgg k f m) = (lookupAgg k m).map f := by
  intro m
  induction m with
  | nil => rfl
  | cons e rest ih =>
    obtain ⟨k2, v⟩ := e
    rw [updateAgg_cons]
    by_cases hk : k2 = k
    · rw [if_pos hk, lookupAgg_cons, lookupAgg_cons, if_pos hk, if_pos hk]
      rfl
    · rw [if_neg hk, lookupAgg_cons, lookupAgg_cons, if_neg hk, if_neg hk]
      exact ih

/-- Helper: updating one key leaves lookups of other keys unchanged. -/
theorem lookupAgg_updateAgg_ne (k k2 : List Char) (f : DocAgg → DocAgg)
    (hk : k ≠ k2) : ∀ m, lookupAgg k (updateAgg k2 f m) = lookupAgg k m := by
  intro m
  induction m with
  | nil => rfl
  | cons e rest ih =>
    obtain ⟨k3, v⟩ := e
    rw [updateAgg_cons]
    by_cases hk3 : k3 = k2
    · have hk3k : ¬ k3 = k := fun hc => hk ((hc.symm.trans hk3).symm ▸ rfl)
      rw [if_pos hk3, lookupAgg_cons, lookupAgg_cons, if_neg hk3k, if_neg hk3k]
    · rw [if_neg hk3, lookupAgg_cons, lookupAgg_cons]
      by_cases hk3k : k3 = k
      · rw [if_pos hk3k, if_pos hk3k]
      · rw [if_neg hk3k, if_neg hk3k]
        exact ih

/-- Helper: `updateAgg` preserves the key sequence. -/
theorem updateAgg_map_fst (k : List Char) (f : DocAgg → DocAgg) :
    ∀ m, (updateAgg k f m).map Prod.fst = m.map Prod.fst := by
  intro m
  induction m with
  | nil => rfl
  | cons e rest ih =>
    obtain ⟨k2, v⟩ := e
    rw [updateAgg_cons]
    by_cases hk : k2 = k
    · rw [if_pos hk]
      rfl
    · rw [if_neg hk]
      simp only [List.map_cons, ih]

/-- Helper: lookup over an append falls through to the second list. -/
theorem lookupAgg_append (k : List Char) :
    ∀ (m m2 : List (List Char × DocAgg)),
      lookupAgg k (m ++ m2) =
        (match lookupAgg k m with
         | some v => some v
         | none => lookupAgg k m2) := by
  intro m m2
  induction m with
  | nil => rfl
  | cons e rest ih =>
    obtain ⟨k2, v⟩ := e
    rw [List.cons_append, lookupAgg_cons, lookupAgg_cons]
    by_cases hk : k2 = k
    · rw [if_pos hk, if_pos hk]
    · rw [if_neg hk, if_neg hk]
      exact ih

/-- Helper: a key is absent from the map exactly when it is not among the
keys. -/
theorem lookupAgg_eq_none_iff (k : List Char) :
    ∀ m, lookupAgg k m = none ↔ k ∉ m.map Prod.fst := by
  intro m
  induction m with
  | nil =>
    constructor
    · intro _
      exact List.not_mem_nil k
    · intro _
      rfl
  | cons e rest ih =>
    obtain ⟨k2, v⟩ := e
    rw [lookupAgg_cons]
    by_cases hk : k2 = k
    · rw [if_pos hk]
      constructor
      · intro h
        exact Option.noConfusion h
      · intro h
        exfalso
        apply h
        rw [List.map_cons]
        exact List.mem_cons.mpr (Or.inl hk.symm)
    · rw [if_neg hk]
      rw [ih]
      constructor
      · intro h hc
        rw [List.map_cons] at hc
        rcases List.mem_cons.mp hc with hc2 | hc2
        · exact hk hc2.symm
        · exact h hc2
      · intro h hc
        apply h
        rw [List.map_cons]
        exact List.mem_cons_of_mem k2 hc

/-- Helper: the fold over fetched vectors equals the fold over the
aggregated records: skipped vectors leave the map unchanged. -/
theorem foldl_foldDoc_eq_foldRec (now : List Char) :
    ∀ (vectors : List FetchedVec) (m : List (List Char × DocAgg)),
      vectors.foldl (foldDoc now) m = (aggRecords vectors).foldl (foldRec now) m := by
  intro vectors
  induction vectors with
  | nil => intro m; rfl
  | cons v vs ih =>
    intro m
    rw [List.foldl_cons]
    obtain ⟨vid, vmeta⟩ := v
    cases vmeta with
    | none =>
      have hskip : foldDoc now m ⟨vid, none⟩ = m := rfl
      rw [hskip]
      exact ih m
    | some md =>
      by_cases hc : (jsTruthy md.documentId && jsTruthy md.source) = true
      · have hstep : foldDoc now m ⟨vid, some md⟩ =
            foldRec now m (md.documentId.getD [], md) := by
          show (if jsTruthy md.documentId && jsTruthy md.source then
            foldRec now m (md.documentId.getD [], md) else m) =
            foldRec now m (md.documentId.getD [], md)
          rw [if_pos hc]
        have hf : ((⟨vid, some md⟩ : FetchedVec).metadata.bind (fun md =>
            if jsTruthy md.documentId && jsTruthy md.source then
              some (md.documentId.getD [], md)
            else none)) = some (md.documentId.getD [], md) := by
          show (if jsTruthy md.documentId && jsTruthy md.source then
            some (md.documentId.getD [], md) else none) =
            some (md.documentId.getD [], md)
          rw [if_pos hc]
        have hagg : aggRecords (⟨vid, some md⟩ :: vs) =
            (md.documentId.getD [], md) :: aggRecords vs := by
          unfold aggRecords
          exact List.filterMap_cons_some hf
        rw [hstep, hagg, List.foldl_cons]
        exact ih _
      · have hskip : foldDoc now m ⟨vid, some md⟩ = m := by
          show (if jsTruthy md.documentId && jsTruthy md.source then
            foldRec now m (md.documentId.getD [], md) else m) = m
          rw [if_neg hc]
        have hf : ((⟨vid, some md⟩ : FetchedVec).metadata.bind (fun md =>
            if jsTruthy md.documentId && jsTruthy md.source then
              some (md.documentId.getD [], md)
            else none)) = none := by
          show (if jsTruthy md.documentId && jsTruthy md.source then
            some (md.documentId.getD [], md) else none) = none
          rw [if_neg hc]
        have hagg : aggRecords (⟨vid, some md⟩ :: vs) = aggRecords vs := by
          unfold aggRecords
          exact List.filterMap_cons_none hf
        rw [hskip, hagg]
        exact ih m

/-- Helper: `foldRec` unfolded on a pair. -/
theorem foldRec_eq (now : List Char) (m : List (List Char × DocAgg))
    (k0 : List Char) (md : MetaBag) :
    foldRec now m (k0, md) =
      updateAgg k0 (bumpAgg md)
        (if (lookupAgg k0 m).isSome then m else m ++ [(k0, initAgg now md)]) :=
  rfl

/-- Helper: `bumpAgg` always increments the chunk count. -/
theorem bumpAgg_chunkCount (md : MetaBag) (d : DocAgg) :
    (bumpAgg md d).chunkCount = d.chunkCount + 1 := by
  unfold bumpAgg
  by_cases h : (jsTruthy md.createdAt &&
      jsStrLt (md.createdAt.getD [])
        ({ d with chunkCount := d.chunkCount + 1 } : DocAgg).createdAt) = true
  · rw [if_pos h]
  · rw [if_neg h]

/-- Helper: `bumpAgg` keeps the stored `createdAt` unless the record's is
truthy and strictly earlier. -/
theorem bumpAgg_createdAt (md : MetaBag) (d : DocAgg) :
    (bumpAgg md d).createdAt =
      if (jsTruthy md.createdAt && jsStrLt (md.createdAt.getD []) d.createdAt) = true
      then md.createdAt.getD [] else d.createdAt := by
  unfold bumpAgg
  by_cases h : (jsTruthy md.createdAt &&
      jsStrLt (md.createdAt.getD [])
        ({ d with chunkCount := d.chunkCount + 1 } : DocAgg).createdAt) = true
  · rw [if_pos h, if_pos h]
  · rw [if_neg h, if_neg h]

/-- Helper: `cAts` over an append with a matching final record. -/
theorem cAts_append_matching (k : List Char) (l : List (List Char × MetaBag))
    (r : List Char × MetaBag) (hr : r.1 = k) :
    cAts k (l ++ [r]) = cAts k l ++ [r.2.createdAt.getD []] := by
  unfold cAts
  rw [List.filter_append, List.map_append]
  congr 1
  rw [List.filter_cons]
  rw [if_pos (by simp [hr])]
  rfl

/-- Helper: `cAts` over an append with a non-matching final record. -/
theorem cAts_append_other (k : List Char) (l : List (List Char × MetaBag))
    (r : List Char × MetaBag) (hr : r.1 ≠ k) :
    cAts k (l ++ [r]) = cAts k l := by
  unfold cAts
  rw [List.filter_append]
  rw [List.filter_cons]
  rw [if_neg (by simp [hr])]
  simp

/-- Helper: `cAts` is empty when the key does not occur. -/
theorem cAts_eq_nil (k : List Char) (l : List (List Char × MetaBag))
    (hk : k ∉ l.map Prod.fst) : cAts k l = [] := by
  unfold cAts
  have hfil : l.filter (fun r => decide (r.1 = k)) = [] := by
    rw [List.filter_eq_nil]
    intro r hr hc
    exact hk (List.mem_map.mpr ⟨r, hr, by simpa using hc⟩)
  rw [hfil]
  rfl

/-- Helper: the count of matching records is zero when the key does not
occur. -/
theorem countP_eq_zero_of_not_mem (k : List Char)
    (l : List (List Char × MetaBag)) (hk : k ∉ l.map Prod.fst) :
    l.countP (fun r => decide (r.1 = k)) = 0 := by
  rw [List.countP_eq_zero]
  intro r hr hc
  exact hk (List.mem_map.mpr ⟨r, hr, by simpa using hc⟩)

/-- Helper: one aggregated record preserves the fold invariant. -/
theorem aggInv_step (now : List Char) (done : List (List Char × MetaBag))
    (m : List (List Char × DocAgg)) (r : List Char × MetaBag)
    (hinv : aggInv done m) : aggInv (done ++ [r]) (foldRec now m r) := by
  obtain ⟨hkeys, hlook⟩ := hinv
  obtain ⟨k0, md⟩ := r
  rw [foldRec_eq]
  cases hcase : lookupAgg k0 m with
  | some a0 =>
    rw [if_pos (show (some a0).isSome = true from rfl)]
    have hk0in : k0 ∈ done.map Prod.fst := by
      have h1 : k0 ∈ m.map Prod.fst := by
        by_contra hc
        rw [← lookupAgg_eq_none_iff] at hc
        rw [hcase] at hc
        exact Option.noConfusion hc
      rw [hkeys] at h1
      exact ((mem_dedupFirst _ [] k0).mp h1).2
    constructor
    · rw [updateAgg_map_fst, hkeys, List.map_append]
      simp only [List.map_cons, List.map_nil]
      rw [dedupFirst_append_mem _ [] k0 (Or.inr hk0in)]
    · intro k a hlk
      by_cases hkk : k = k0
      · subst hkk
        rw [lookupAgg_updateAgg_self, hcase, Option.map_some'] at hlk
        injection hlk with hlk
        obtain ⟨hcnt0, hcreated0⟩ := hlook k a0 hcase
        constructor
        · rw [← hlk, bumpAgg_chunkCount, hcnt0, List.countP_append]
          have hone : List.countP (fun r => decide (r.1 = k)) [(k, md)] = 1 := by
            rw [List.countP_cons, List.countP_nil]
            simp
          rw [hone]
        · intro Hall
          have Hdone : ∀ r ∈ done, r.1 = k → jsTruthy r.2.createdAt = true :=
            fun r hr => Hall r (List.mem_append_left _ hr)
          have Hr : jsTruthy md.createdAt = true :=
            Hall (k, md) (List.mem_append_right _ (by simp)) rfl
          obtain ⟨hmem0, hmin0⟩ := hcreated0 Hdone
          have hcats : cAts k (done ++ [(k, md)]) =
              cAts k done ++ [md.createdAt.getD []] :=
            cAts_append_matching k done (k, md) rfl
          rw [hcats]
          rw [← hlk, bumpAgg_createdAt, Hr, Bool.true_and]
          by_cases hlt : jsStrLt (md.createdAt.getD []) a0.createdAt = true
          · rw [if_pos hlt]
            constructor
            · exact List.mem_append_right _ (by simp)
            · intro c hc
              rcases List.mem_append.mp hc with hc | hc
              · by_contra hcc
                rw [Bool.not_eq_false] at hcc
                have htr := jsStrLt_trans c (md.createdAt.getD []) a0.createdAt hcc hlt
                rw [hmin0 c hc] at htr
                exact Bool.noConfusion htr
              · have hceq : c = md.createdAt.getD [] := by simpa using hc
                rw [hceq]
                exact jsStrLt_irrefl _
          · rw [if_neg hlt]
            rw [Bool.not_eq_true] at hlt
            constructor
            · exact List.mem_append_left _ hmem0
            · intro c hc
              rcases List.mem_append.mp hc with hc | hc
              · exact hmin0 c hc
              · have hceq : c = md.createdAt.getD [] := by simpa using hc
                rw [hceq]
                exact hlt
      · rw [lookupAgg_updateAgg_ne k k0 _ hkk] at hlk
        obtain ⟨hcnt0, hcreated0⟩ := hlook k a hlk
        constructor
        · rw [hcnt0, List.countP_append]
          have hne0 : ¬ k0 = k := fun hc => hkk hc.symm
          have hzero : List.countP (fun r => decide (r.1 = k)) [(k0, md)] = 0 := by
            rw [List.countP_cons, List.countP_nil]
            simp [hne0]
          rw [hzero]
          omega
        · intro Hall
          have Hdone : ∀ r ∈ done, r.1 = k → jsTruthy r.2.createdAt = true :=
            fun r hr => Hall r (List.mem_append_left _ hr)
          have hcats : cAts k (done ++ [(k0, md)]) = cAts k done :=
            cAts_append_other k done (k0, md) (fun hc => hkk hc.symm)
          rw [hcats]
          exact hcreated0 Hdone
  | none =>
    rw [if_neg (by simp)]
    have hk0notin : k0 ∉ m.map Prod.fst := (lookupAgg_eq_none_iff k0 m).mp hcase
    have hk0notdone : k0 ∉ done.map Prod.fst := by
      intro hc
      rw [hkeys] at hk0notin
      exact hk0notin ((mem_dedupFirst _ [] k0).mpr ⟨by simp, hc⟩)
    have hm1 : lookupAgg k0 (m ++ [(k0, initAgg now md)]) =
        some (initAgg now md) := by
      rw [lookupAgg_append, hcase]
      rw [lookupAgg_cons, if_pos rfl]
    constructor
    · rw [updateAgg_map_fst, List.map_append, hkeys, List.map_append]
      simp only [List.map_cons, List.map_nil]
      rw [dedupFirst_append_new _ [] k0 (by simp) hk0notdone]
    · intro k a hlk
      by_cases hkk : k = k0
      · subst hkk
        rw [lookupAgg_updateAgg_self, hm1, Option.map_some'] at hlk
        injection hlk with hlk
        constructor
        · rw [← hlk, bumpAgg_chunkCount]
          show (initAgg now md).chunkCount + 1 = _
          rw [List.countP_append]
          have hone : List.countP (fun r => decide (r.1 = k)) [(k, md)] = 1 := by
            rw [List.countP_cons, List.countP_nil]
            simp
          rw [hone, countP_eq_zero_of_not_mem k done hk0notdone]
          rfl
        · intro Hall
          have Hr : jsTruthy md.createdAt = true :=
            Hall (k, md) (List.mem_append_right _ (by simp)) rfl
          have hinitc : (initAgg now md).createdAt = md.createdAt.getD [] := by
            unfold initAgg
            rw [if_pos Hr]
          have hcats : cAts k (done ++ [(k, md)]) =
              cAts k done ++ [md.createdAt.getD []] :=
            cAts_append_matching k done (k, md) rfl
          rw [hcats, cAts_eq_nil k done hk0notdone, List.nil_append]
          rw [← hlk, bumpAgg_createdAt, hinitc]
          rw [if_neg (by rw [Hr, Bool.true_and, jsStrLt_irrefl]; exact Bool.noConfusion)]
          constructor
          · simp
          · intro c hc
            have hceq : c = md.createdAt.getD [] := by simpa using hc
            rw [hceq]
            exact jsStrLt_irrefl _
      · rw [lookupAgg_updateAgg_ne k k0 _ hkk] at hlk
        have hlkm : lookupAgg k m = some a := by
          rw [lookupAgg_append] at hlk
          cases h2 : lookupAgg k m with
          | some v =>
            rw [h2] at hlk
            exact hlk
          | none =>
            rw [h2] at hlk
            rw [lookupAgg_cons, if_neg (fun hc => hkk hc.symm)] at hlk
            exact Option.noConfusion hlk
        obtain ⟨hcnt0, hcreated0⟩ := hlook k a hlkm
        constructor
        · rw [hcnt0, List.countP_append]
          have hne0 : ¬ k0 = k := fun hc => hkk hc.symm
          have hzero : List.countP (fun r => decide (r.1 = k)) [(k0, md)] = 0 := by
            rw [List.countP_cons, List.countP_nil]
            simp [hne0]
          rw [hzero]
          omega
        · intro Hall
          have Hdone : ∀ r ∈ done, r.1 = k → jsTruthy r.2.createdAt = true :=
            fun r hr => Hall r (List.mem_append_left _ hr)
          have hcats : cAts k (done ++ [(k0, md)]) = cAts k done :=
            cAts_append_other k done (k0, md) (fun hc => hkk hc.symm)
          rw [hcats]
          exact hcreated0 Hdone

/-- Helper: the fold invariant propagates over a whole record list. -/
theorem aggInv_foldl (now : List Char) :
    ∀ (rs done : List (List Char × MetaBag)) (m : List (List Char × DocAgg)),
      aggInv done m → aggInv (done ++ rs) (rs.foldl (foldRec now) m) := by
  intro rs
  induction rs with
  | nil =>
    intro done m h
    rw [List.append_nil]
    exact h
  | cons r rs ih =>
    intro done m h
    rw [List.foldl_cons]
    have h2 := ih (done ++ [r]) (foldRec now m r) (aggInv_step now done m r h)
    rw [List.append_assoc] at h2
    exact h2

/-- C7 amended: `getUniqueDocuments` returns one entry per distinct
`documentId` among the records carrying BOTH a truthy `documentId` and a
truthy `source` (records lacking either are skipped); each entry's
`chunkCount` equals the number of such records with that `documentId`,
and — when every such record carries a truthy `createdAt` — its
`createdAt` is the lexicographically earliest `createdAt` seen among
them. -/
theorem getUniqueDocuments_spec (now : List Char) (vectors : List FetchedVec) :
    ((getUniqueDocuments now vectors).map Prod.fst).Nodup ∧
    (∀ k, k ∈ (getUniqueDocuments now vectors).map Prod.fst ↔
      k ∈ (aggRecords vectors).map Prod.fst) ∧
    (∀ k a, lookupAgg k (getUniqueDocuments now vectors) = some a →
      a.chunkCount = (aggRecords vectors).countP (fun r => decide (r.1 = k)) ∧
      ((∀ r ∈ aggRecords vectors, r.1 = k → jsTruthy r.2.createdAt = true) →
        a.createdAt ∈ cAts k (aggRecords vectors) ∧
        ∀ c ∈ cAts k (aggRecords vectors), jsStrLt c a.createdAt = false)) := by
  have hbase : aggInv [] [] := by
    constructor
    · rfl
    · intro k a h
      exact Option.noConfusion h
  have h := aggInv_foldl now (aggRecords vectors) [] [] hbase
  rw [List.nil_append] at h
  have heq : getUniqueDocuments now vectors =
      (aggRecords vectors).foldl (foldRec now) [] :=
    foldl_foldDoc_eq_foldRec now vectors []
  obtain ⟨hkeys, hlook⟩ := h
  refine ⟨?_, ?_, ?_⟩
  · rw [heq, hkeys]
    exact nodup_dedupFirst _ []
  · intro k
    rw [heq, hkeys, mem_dedupFirst]
    constructor
    · intro hk
      exact hk.2
    · intro hk
      exact ⟨List.not_mem_nil k, hk⟩
  · intro k a hlk
    rw [heq] at hlk
    exact hlook k a hlk

/-- C7 fails as stated: a record whose metadata has a truthy `documentId`
but no `source` does not "lack both", yet it is skipped — the listing is
empty instead of containing a summary for that `documentId` with
`chunkCount` 1. -/
theorem getUniqueDocuments_missing_source_counterexample :
    getUniqueDocuments "t".toList
      [⟨"D-chunk-0".toList, some { documentId := some "D".toList }⟩] = [] ∧
    jsTruthy (some "D".toList) = true := by
  decide

/-- Witness for C7 on the two-chunk fixture. -/
theorem getUniqueDocuments_spec_witness :
    (⟨"a".toList, "1".toList, 2⟩ : DocAgg).chunkCount =
      (aggRecords sampleVecs).countP (fun r => decide (r.1 = "D".toList)) ∧
    (⟨"a".toList, "1".toList, 2⟩ : DocAgg).createdAt ∈
      cAts "D".toList (aggRecords sampleVecs) ∧
    (∀ c ∈ cAts "D".toList (aggRecords sampleVecs),
      jsStrLt c "1".toList = false) := by
  have h := ((getUniqueDocuments_spec "t".toList sampleVecs).2.2 "D".toList
    ⟨"a".toList, "1".toList, 2⟩ (by decide))
  exact ⟨h.1, (h.2 (by decide)).1, (h.2 (by decide)).2⟩

end RagChat
